import Mathlib

/-!
Verification of the `codemap.analyzer` core (graph.py, impact.py, symbols.py).

The Python code is embedded shallowly:

* `DependencyGraph` (a wrapper around a NetworkX `DiGraph`) becomes a structure
  holding the node list (insertion ordered, no duplicates when built through
  the API) and the edge list, each edge carrying `kind` and a `locations` list,
  exactly the attribute set `add_dependency` maintains.
* The recursive inner `traverse` closures of `get_callers`/`get_callees` become
  one fuel-indexed function parametrised by the adjacency direction and the
  depth cutoff; the two directions differ in the source exactly by
  `predecessors` vs `successors` and by `current_depth > depth` vs
  `current_depth >= depth`.  The fuel `(allNodes g).length + 1` dominates the
  recursion depth (each active call adds a fresh node to `visited`), so the
  fuel branch is never taken on the calls the API makes; the closure lemmas
  below establish the needed facts for that fuel explicitly.
* Python `str | None` arguments are `Option String`; the truthiness tests
  `if location:` are modelled as `some l` with `l ≠ ""`, and `int | None`
  depth arguments are `Option Int` with Python truthiness on `0`.
* Python `sorted` on strings is modelled by an insertion sort over the
  character-wise lexicographic order, and `set`s by lists kept free of
  duplicates via insert-if-absent.
-/

namespace CodeMapV

/-- Character-list prefix test, used to model Python's `in` on strings. -/
def hasPre : List Char → List Char → Bool
  | [], _ => true
  | _ :: _, [] => false
  | p :: ps, c :: cs => p = c && hasPre ps cs

/-- Substring test on character lists (Python `pat in s`). -/
def hasSub (pat : List Char) : List Char → Bool
  | [] => pat.isEmpty
  | c :: cs => hasPre pat (c :: cs) || hasSub pat cs

/-- Python `pat in s` on strings. -/
def strContainsB (s pat : String) : Bool :=
  hasSub pat.toList s.toList

/-- Python `s.lower()`, modelled characterwise (ASCII-faithful). -/
def lowerStr (s : String) : String :=
  ⟨s.toList.map Char.toLower⟩

/-- Python `s.split(".")[0]`: the prefix of `s` before the first dot
(the whole string when no dot occurs). -/
def firstSeg (s : String) : String :=
  ⟨s.toList.takeWhile (fun c => c ≠ '.')⟩

/-- Lexicographic comparison of character lists by code point, the order
Python uses to compare strings. -/
def charListLt : List Char → List Char → Bool
  | [], [] => false
  | [], _ :: _ => true
  | _ :: _, [] => false
  | a :: as_, b :: bs =>
    if a.toNat < b.toNat then true
    else if b.toNat < a.toNat then false
    else charListLt as_ bs

/-- Python `a < b` on strings (code-point lexicographic). -/
def strLt (a b : String) : Bool :=
  charListLt a.toList b.toList

/-- Insert a string into an ascending list (step of the model of `sorted`). -/
def insertStr (x : String) : List String → List String
  | [] => [x]
  | y :: ys => if strLt x y then x :: y :: ys else y :: insertStr x ys

/-- Python `sorted` on a list of strings (insertion sort, ascending). -/
def sortStrs (l : List String) : List String :=
  l.foldr insertStr []

/-- An edge of the dependency graph with its NetworkX attributes:
`kind` and the accumulated `locations` list. -/
structure DepEdge where
  src : String
  dst : String
  kind : String
  locations : List String
deriving DecidableEq, Repr

/-- The `DependencyGraph` wrapper state: the underlying `DiGraph`'s nodes in
insertion order and its attributed edges in insertion order. -/
structure DependencyGraph where
  nodes : List String
  edges : List DepEdge
deriving DecidableEq, Repr

/-- `DependencyGraph.__init__`: the empty directed graph. -/
def emptyGraph : DependencyGraph := ⟨[], []⟩

/-- `DiGraph.add_node` on a node list (no effect when present). -/
def addNodeIfAbsent (ns : List String) (n : String) : List String :=
  if n ∈ ns then ns else ns ++ [n]

/-- `DependencyGraph.has_node` / `__contains__`. -/
def hasNodeB (g : DependencyGraph) (s : String) : Bool :=
  decide (s ∈ g.nodes)

/-- Does this edge connect `f` to `t`?  (The `(from,to)` key of the edge.) -/
def matchB (f t : String) (e : DepEdge) : Bool :=
  decide (e.src = f) && decide (e.dst = t)

/-- `DiGraph.has_edge from to`. -/
def hasEdgeB (g : DependencyGraph) (f t : String) : Bool :=
  g.edges.any (matchB f t)

/-- The location-list update performed by `add_dependency`:
`if location and location not in locations: locations.append(location)`
for an existing edge, and `[location] if location else []` for a fresh one
(which is the same function applied to `[]`). -/
def pushLoc (loc : Option String) (ls : List String) : List String :=
  match loc with
  | none => ls
  | some l => if l = "" then ls else if l ∈ ls then ls else ls ++ [l]

/-- The update `add_dependency` applies to the existing `(from,to)` edge:
only its `locations` attribute changes (the `kind` argument is not used on
this path in the source). -/
def updEdge (f t : String) (loc : Option String) (e : DepEdge) : DepEdge :=
  if matchB f t e then { e with locations := pushLoc loc e.locations } else e

/-- `DependencyGraph.add_dependency`: ensures both endpoints are nodes, then
either updates the `locations` of the existing `(from,to)` edge or appends a
new edge carrying `kind` and the initial location list. -/
def add_dependency (g : DependencyGraph) (from_sym to_sym : String)
    (kind : String) (location : Option String) : DependencyGraph :=
  let ns := addNodeIfAbsent (addNodeIfAbsent g.nodes from_sym) to_sym
  if hasEdgeB g from_sym to_sym then
    ⟨ns, g.edges.map (updEdge from_sym to_sym location)⟩
  else
    ⟨ns, g.edges ++ [⟨from_sym, to_sym, kind, pushLoc location []⟩]⟩

/-- `DiGraph.predecessors node`, in edge-insertion order. -/
def preds (g : DependencyGraph) (v : String) : List String :=
  (g.edges.filter (fun e => decide (e.dst = v))).map DepEdge.src

/-- `DiGraph.successors node`, in edge-insertion order. -/
def succs (g : DependencyGraph) (v : String) : List String :=
  (g.edges.filter (fun e => decide (e.src = v))).map DepEdge.dst

/-- Every name occurring in the graph (nodes and edge endpoints); a bound for
the set of names a traversal can ever visit. -/
def allNodes (g : DependencyGraph) : List String :=
  (g.nodes ++ g.edges.map DepEdge.src ++ g.edges.map DepEdge.dst).dedup

/-- The mutable state of the inner `traverse` closure of
`get_callers`/`get_callees`: the `visited` set and the accumulated
result set (`callers` resp. `callees`). -/
structure TravState where
  visited : List String
  acc : List String
deriving DecidableEq, Repr

/-- The inner recursive `traverse(node, current_depth)` closure, parametrised
by the adjacency direction `adj` and the depth-`cutoff` test.  `fuel` only
bounds the recursion depth to make the function total; each call that recurses
first adds a fresh node to `visited`, so recursion depth never exceeds the
number of distinct node names and the API's fuel `(allNodes g).length + 1`
is never exhausted. -/
def traverse (adj : String → List String) (cutoff : Nat → Bool) :
    Nat → String → Nat → TravState → TravState
  | 0, _, _, st => st
  | fuel + 1, node, cd, st =>
    if node ∈ st.visited then st
    else
      let st1 : TravState := ⟨node :: st.visited, st.acc⟩
      if cutoff cd then st1
      else (adj node).foldl
        (fun s p => traverse adj cutoff fuel p (cd + 1) ⟨s.visited, s.acc.insert p⟩)
        st1

/-- The cutoff of `get_callers`: `depth is not None and current_depth > depth`. -/
def callersCutoff (depth : Option Int) (cd : Nat) : Bool :=
  match depth with
  | none => false
  | some d => decide ((cd : Int) > d)

/-- The cutoff of `get_callees`: `depth is not None and current_depth >= depth`. -/
def calleesCutoff (depth : Option Int) (cd : Nat) : Bool :=
  match depth with
  | none => false
  | some d => decide ((cd : Int) ≥ d)

/-- `DependencyGraph.get_callers`. -/
def get_callers (g : DependencyGraph) (symbol : String) (depth : Option Int) :
    List String :=
  if hasNodeB g symbol then
    sortStrs (traverse (preds g) (callersCutoff depth)
      ((allNodes g).length + 1) symbol 0 ⟨[], []⟩).acc
  else []

/-- `DependencyGraph.get_callees`. -/
def get_callees (g : DependencyGraph) (symbol : String) (depth : Option Int) :
    List String :=
  if hasNodeB g symbol then
    sortStrs (traverse (succs g) (calleesCutoff depth)
      ((allNodes g).length + 1) symbol 0 ⟨[], []⟩).acc
  else []

/-- Does `c` (a list of pairwise-distinct node names by construction below)
spell out consecutive edges of `g`? -/
def chainB (g : DependencyGraph) : List String → Bool
  | [] => true
  | [_] => true
  | a :: b :: rest => hasEdgeB g a b && chainB g (b :: rest)

/-- Is `c` the canonical representative (rotated to start at its minimal
element) of an elementary cycle of `g`? -/
def isElemCycle (g : DependencyGraph) (c : List String) : Bool :=
  match c with
  | [] => false
  | v :: _ => chainB g c && hasEdgeB g (c.getLastD v) v &&
      c.all (fun u => !strLt u v)

/-- All ways to insert `x` into a list (helper for permutation enumeration). -/
def insertsEverywhere (x : String) : List String → List (List String)
  | [] => [[x]]
  | y :: ys => (x :: y :: ys) :: (insertsEverywhere x ys).map (fun l => y :: l)

/-- All permutations of a list (structural enumeration). -/
def permsOf : List String → List (List String)
  | [] => [[]]
  | x :: xs => (permsOf xs).flatMap (insertsEverywhere x)

/-- Modelled from the spec: `find_cycles` delegates to the third-party
`nx.simple_cycles` (NetworkX, not part of this repository), documented — and
described by the spec — as returning every elementary (simple) cycle of the
digraph once.  Here each elementary cycle is enumerated once as the rotation
of its node sequence that starts at the minimal name. -/
def elementaryCycles (g : DependencyGraph) : List (List String) :=
  ((allNodes g).sublists.flatMap permsOf).filter (isElemCycle g)

/-- Lexicographic (Python list) order on sorted cycles. -/
def listLtB : List String → List String → Bool
  | [], [] => false
  | [], _ :: _ => true
  | _ :: _, [] => false
  | a :: as_, b :: bs =>
    if strLt a b then true else if strLt b a then false else listLtB as_ bs

/-- Insertion step for sorting lists of cycles. -/
def insertCyc (x : List String) : List (List String) → List (List String)
  | [] => [x]
  | y :: ys => if listLtB x y then x :: y :: ys else y :: insertCyc x ys

/-- Python `sorted` on a list of string lists. -/
def sortCycs (l : List (List String)) : List (List String) :=
  l.foldr insertCyc []

/-- `DependencyGraph.find_cycles`:
`sorted([sorted(cycle) for cycle in nx.simple_cycles(self._graph)])`.
The `except` branch (log and return `[]`) is dead in the model, since the
modelled cycle enumeration raises no exception. -/
def find_cycles (g : DependencyGraph) : List (List String) :=
  sortCycs ((elementaryCycles g).map sortStrs)

/-! ### Impact analyzer (`impact.py`) -/

/-- The `ImpactReport` dataclass (`Path`s modelled as strings). -/
structure ImpactReport where
  affected_symbols : List String
  affected_files : List String
  risk_score : Int
  suggested_tests : List String
  direct_impacts : List String
  transitive_impacts : List String
deriving DecidableEq, Repr

/-- `ImpactAnalyzer._calculate_risk_score`. -/
def calculate_risk_score (affected : List String) (depth : Nat)
    (has_tests : Bool) : Int :=
  let base_score := min 50 ((affected.length : Int) * 5)
  let depth_score := min 30 ((depth : Int) * 2)
  let test_reduction : Int := if has_tests then 10 else 0
  max 0 (min 100 (base_score + depth_score - test_reduction))

/-- `ImpactAnalyzer._has_tests`: `any("test" in sym.lower() for sym in affected)`. -/
def has_tests (affected : List String) : Bool :=
  affected.any (fun sym => strContainsB (lowerStr sym) "test")

/-- `ImpactAnalyzer.suggest_test_files` (paths as strings; the
`len(parts) > 0` guard is always true since Python `split` never returns
an empty list). -/
def suggest_test_files (affected : List String) : List String :=
  sortStrs (affected.foldl (fun acc symbol =>
    let module := firstSeg symbol
    (acc.insert ("tests/test_" ++ module ++ ".py")).insert
      ("tests/" ++ module ++ "/test_*.py")) [])

/-- The depth handed to the inner `get_callers` calls of `analyze_impact`:
`max_depth - 1 if max_depth else None` (Python truthiness: `0` is falsy). -/
def pythonDepth (max_depth : Option Int) : Option Int :=
  match max_depth with
  | none => none
  | some m => if m = 0 then none else some (m - 1)

/-- One iteration of the `for symbol in symbols` loop of `analyze_impact`,
acting on the pair `(direct_impacts, transitive_impacts)`. -/
def impactStep (g : DependencyGraph) (max_depth : Option Int)
    (acc : List String × List String) (symbol : String) :
    List String × List String :=
  if hasNodeB g symbol then
    let callers := get_callers g symbol none
    let direct := callers.foldl (fun d c => d.insert c) acc.1
    let trans := callers.foldl (fun t c =>
      (get_callers g c (pythonDepth max_depth)).foldl
        (fun t x => if x ∈ direct then t else t.insert x) t) acc.2
    (direct, trans)
  else acc

/-- The `(direct_impacts, transitive_impacts)` pair after the whole
`for symbol in symbols` loop of `analyze_impact`. -/
def impactDT (g : DependencyGraph) (symbols : List String)
    (max_depth : Option Int) : List String × List String :=
  symbols.foldl (impactStep g max_depth) ([], [])

/-- `all_affected = direct_impacts | transitive_impacts`. -/
def impactAll (g : DependencyGraph) (symbols : List String)
    (max_depth : Option Int) : List String :=
  (impactDT g symbols max_depth).2.foldl (fun a x => a.insert x)
    (impactDT g symbols max_depth).1

/-- `ImpactAnalyzer.analyze_impact`. -/
def analyze_impact (g : DependencyGraph) (symbols : List String)
    (max_depth : Option Int) : ImpactReport :=
  let transitive := (impactDT g symbols max_depth).2
  let all_affected := impactAll g symbols max_depth
  let affected_files := all_affected.foldl (fun fs s =>
    if hasNodeB g s then fs.insert (firstSeg s) else fs) []
  let risk := calculate_risk_score all_affected transitive.length
    (has_tests all_affected)
  { affected_symbols := sortStrs all_affected
    affected_files := sortStrs affected_files
    risk_score := risk
    suggested_tests := suggest_test_files all_affected
    direct_impacts := sortStrs (impactDT g symbols max_depth).1
    transitive_impacts := sortStrs transitive }

/-! ### Symbol registry (`symbols.py`) -/

/-- `SymbolKind` (the Python `class` member is spelled `cls` here). -/
inductive SymbolKind where
  | module
  | cls
  | function
  | method
deriving DecidableEq, Repr

/-- `SourceLocation` (`Path` modelled as a string). -/
structure SourceLocation where
  file : String
  line : Nat
  column : Nat := 0
deriving DecidableEq, Repr

/-- The `Symbol` dataclass. -/
structure Symbol where
  name : String
  qualified_name : String
  kind : SymbolKind
  location : SourceLocation
  docstring : Option String := none
  signature : Option String := none
deriving DecidableEq, Repr

/-- A Python `dict` as an insertion-ordered association list: `upsert`
replaces the value at an existing key in place and otherwise appends. -/
def upsert {κ α : Type} [DecidableEq κ] (l : List (κ × α)) (k : κ) (v : α) :
    List (κ × α) :=
  match l with
  | [] => [(k, v)]
  | (k', v') :: rest =>
    if k' = k then (k, v) :: rest else (k', v') :: upsert rest k v

/-- `dict.get` on the association-list model. -/
def lookupA {κ α : Type} [DecidableEq κ] (l : List (κ × α)) (k : κ) : Option α :=
  match l with
  | [] => none
  | (k', v') :: rest => if k' = k then some v' else lookupA rest k

/-- `SymbolRegistry`: the `_by_name` and `_by_location` dicts. -/
structure SymbolRegistry where
  byName : List (String × Symbol)
  byLoc : List ((String × Nat) × Symbol)
deriving DecidableEq, Repr

/-- `SymbolRegistry.__init__`. -/
def emptyRegistry : SymbolRegistry := ⟨[], []⟩

/-- The `(file, line)` key used by `_by_location`. -/
def locKey (s : Symbol) : String × Nat :=
  (s.location.file, s.location.line)

/-- `SymbolRegistry.add`. -/
def SymbolRegistry.add (r : SymbolRegistry) (s : Symbol) : SymbolRegistry :=
  ⟨upsert r.byName s.qualified_name s, upsert r.byLoc (locKey s) s⟩

/-- `SymbolRegistry.get`. -/
def SymbolRegistry.get (r : SymbolRegistry) (q : String) : Option Symbol :=
  lookupA r.byName q

/-- `SymbolRegistry.get_by_location`. -/
def SymbolRegistry.get_by_location (r : SymbolRegistry) (file : String)
    (line : Nat) : Option Symbol :=
  lookupA r.byLoc (file, line)

/-- `SymbolRegistry.__len__`. -/
def SymbolRegistry.size (r : SymbolRegistry) : Nat :=
  r.byName.length

/-- A whole sequence of `add` calls starting from the fresh registry. -/
def addAll (syms : List Symbol) : SymbolRegistry :=
  syms.foldl SymbolRegistry.add emptyRegistry

/-- The last element of `l` satisfying `p`, if any: the value a Python dict
holds at a key after a sequence of inserts ("last insert wins"). -/
def lastMatch (p : Symbol → Bool) : List Symbol → Option Symbol
  | [] => none
  | s :: rest =>
    match lastMatch p rest with
    | some t => some t
    | none => if p s then some s else none

/-! ### Concrete graphs used by the claim instances -/

/-- A single edge `b → a`. -/
def gPredOne : DependencyGraph := add_dependency emptyGraph "b" "a" "calls" none

/-- The chain `a→b→c→d→e`. -/
def gChain5 : DependencyGraph :=
  add_dependency (add_dependency (add_dependency (add_dependency emptyGraph
    "a" "b" "calls" none) "b" "c" "calls" none) "c" "d" "calls" none)
    "d" "e" "calls" none

/-- The three-cycle `a→b→c→a`. -/
def gCycle : DependencyGraph :=
  add_dependency (add_dependency (add_dependency emptyGraph
    "a" "b" "calls" none) "b" "c" "calls" none) "c" "a" "calls" none

/-- The acyclic chain `a→b→c`. -/
def gChain3 : DependencyGraph :=
  add_dependency (add_dependency emptyGraph "a" "b" "calls" none)
    "b" "c" "calls" none

/-- A mixed-case test caller: `Test_a → s`. -/
def gTestCase : DependencyGraph :=
  add_dependency emptyGraph "Test_a" "s" "calls" none

/-- Two identical `add_dependency` calls whose supplied location is the empty
string. -/
def gEmptyLoc : DependencyGraph :=
  add_dependency (add_dependency emptyGraph "f" "t" "calls" (some ""))
    "f" "t" "calls" (some "")

/-! ### Sorting and set-as-list lemmas -/

theorem insertStr_perm (x : String) (l : List String) :
    (insertStr x l).Perm (x :: l) := by
  induction l with
  | nil => simp [insertStr]
  | cons y ys ih =>
    rw [insertStr]
    by_cases h : strLt x y = true
    · simp [h]
    · simp only [if_neg h]
      exact ((ih.cons y).trans (List.Perm.swap x y ys))

theorem sortStrs_perm (l : List String) : (sortStrs l).Perm l := by
  induction l with
  | nil => simp [sortStrs]
  | cons x xs ih =>
    rw [sortStrs, List.foldr_cons]
    exact (insertStr_perm x _).trans (ih.cons x)

theorem mem_sortStrs {x : String} {l : List String} :
    x ∈ sortStrs l ↔ x ∈ l :=
  (sortStrs_perm l).mem_iff

theorem length_sortStrs (l : List String) :
    (sortStrs l).length = l.length :=
  (sortStrs_perm l).length_eq

theorem any_sortStrs (l : List String) (p : String → Bool) :
    (sortStrs l).any p = l.any p := by
  rcases h : l.any p with _ | _
  · rw [List.any_eq_false] at h ⊢
    intro x hx; exact h x (mem_sortStrs.mp hx)
  · rw [List.any_eq_true] at h ⊢
    rcases h with ⟨x, hx, hp⟩; exact ⟨x, mem_sortStrs.mpr hx, hp⟩

theorem foldl_insert_mem {x : String} (l acc : List String) :
    x ∈ l.foldl (fun d c => d.insert c) acc ↔ x ∈ acc ∨ x ∈ l := by
  induction l generalizing acc with
  | nil => simp
  | cons c cs ih =>
    rw [List.foldl_cons, ih]
    simp [List.mem_insert_iff]
    tauto

/-! ### Traversal lemmas

`traverse` is the inner DFS of `get_callers`/`get_callees`.  Throughout,
`R adj a b` (`a` is explored from `b`) is the step relation whose transitive
closure the unbounded traversal computes. -/

/-- The step relation of a traversal: for callers `a ∈ preds g b` (an edge
`a → b`), for callees `a ∈ succs g b` (an edge `b → a`). -/
def stepRel (adj : String → List String) (a b : String) : Prop :=
  a ∈ adj b

theorem traverse_mono (adj : String → List String) (cutoff : Nat → Bool) :
    ∀ (fuel : Nat) (node : String) (cd : Nat) (st : TravState),
      (∀ x, x ∈ st.visited →
        x ∈ (traverse adj cutoff fuel node cd st).visited) ∧
      (∀ x, x ∈ st.acc → x ∈ (traverse adj cutoff fuel node cd st).acc) := by
  intro fuel
  induction fuel with
  | zero => intro node cd st; rw [traverse]; exact ⟨fun x hx => hx, fun x hx => hx⟩
  | succ f ih =>
    intro node cd st
    rw [traverse]
    by_cases hv : node ∈ st.visited
    · rw [if_pos hv]; exact ⟨fun x hx => hx, fun x hx => hx⟩
    · rw [if_neg hv]
      by_cases hc : cutoff cd = true
      · rw [if_pos hc]
        exact ⟨fun x hx => List.mem_cons_of_mem _ hx, fun x hx => hx⟩
      · rw [if_neg hc]
        have aux : ∀ (ps : List String) (st' : TravState),
            (∀ x, x ∈ st'.visited →
              x ∈ (ps.foldl (fun s p =>
                traverse adj cutoff f p (cd + 1)
                  ⟨s.visited, s.acc.insert p⟩) st').visited) ∧
            (∀ x, x ∈ st'.acc →
              x ∈ (ps.foldl (fun s p =>
                traverse adj cutoff f p (cd + 1)
                  ⟨s.visited, s.acc.insert p⟩) st').acc) := by
          intro ps
          induction ps with
          | nil => intro st'; exact ⟨fun x hx => hx, fun x hx => hx⟩
          | cons p ps ihp =>
            intro st'
            rw [List.foldl_cons]
            refine ⟨fun x hx => ?_, fun x hx => ?_⟩
            · exact (ihp _).1 x ((ih p (cd + 1) ⟨st'.visited, st'.acc.insert p⟩).1 x hx)
            · exact (ihp _).2 x ((ih p (cd + 1) ⟨st'.visited, st'.acc.insert p⟩).2 x
                (List.mem_insert_of_mem hx))
        refine ⟨fun x hx => (aux (adj node) _).1 x (List.mem_cons_of_mem _ hx),
          fun x hx => (aux (adj node) _).2 x hx⟩

theorem traverseFold_mono (adj : String → List String) (cutoff : Nat → Bool)
    (f cd : Nat) (ps : List String) (st : TravState) :
    (∀ x, x ∈ st.visited →
      x ∈ (ps.foldl (fun s p =>
        traverse adj cutoff f p cd ⟨s.visited, s.acc.insert p⟩) st).visited) ∧
    (∀ x, x ∈ st.acc →
      x ∈ (ps.foldl (fun s p =>
        traverse adj cutoff f p cd ⟨s.visited, s.acc.insert p⟩) st).acc) := by
  induction ps generalizing st with
  | nil => exact ⟨fun x hx => hx, fun x hx => hx⟩
  | cons p ps ihp =>
    rw [List.foldl_cons]
    refine ⟨fun x hx => ?_, fun x hx => ?_⟩
    · exact (ihp _).1 x ((traverse_mono adj cutoff f p cd _).1 x hx)
    · exact (ihp _).2 x ((traverse_mono adj cutoff f p cd _).2 x
        (List.mem_insert_of_mem hx))

theorem traverse_visits (adj : String → List String) (cutoff : Nat → Bool)
    (fuel : Nat) (node : String) (cd : Nat) (st : TravState)
    (hf : 0 < fuel) :
    node ∈ (traverse adj cutoff fuel node cd st).visited := by
  rcases fuel with _ | f
  · exact absurd hf (by simp)
  · rw [traverse]
    by_cases hv : node ∈ st.visited
    · rw [if_pos hv]; exact hv
    · rw [if_neg hv]
      by_cases hc : cutoff cd = true
      · rw [if_pos hc]; exact List.mem_cons_self _ _
      · rw [if_neg hc]
        exact (traverseFold_mono adj cutoff f (cd + 1) (adj node) _).1 node
          (List.mem_cons_self _ _)

theorem traverse_sound (adj : String → List String) (cutoff : Nat → Bool) :
    ∀ (fuel : Nat) (node : String) (cd : Nat) (st : TravState) (x : String),
      x ∈ (traverse adj cutoff fuel node cd st).acc →
      x ∈ st.acc ∨ Relation.TransGen (stepRel adj) x node := by
  intro fuel
  induction fuel with
  | zero => intro node cd st x hx; rw [traverse] at hx; exact Or.inl hx
  | succ f ih =>
    intro node cd st x hx
    rw [traverse] at hx
    by_cases hv : node ∈ st.visited
    · rw [if_pos hv] at hx; exact Or.inl hx
    · rw [if_neg hv] at hx
      by_cases hc : cutoff cd = true
      · rw [if_pos hc] at hx; exact Or.inl hx
      · rw [if_neg hc] at hx
        have aux : ∀ (ps : List String) (st' : TravState),
            x ∈ (ps.foldl (fun s p =>
              traverse adj cutoff f p (cd + 1)
                ⟨s.visited, s.acc.insert p⟩) st').acc →
            x ∈ st'.acc ∨
              ∃ p ∈ ps, x = p ∨ Relation.TransGen (stepRel adj) x p := by
          intro ps
          induction ps with
          | nil => intro st' h; exact Or.inl h
          | cons p ps ihp =>
            intro st' h
            rw [List.foldl_cons] at h
            rcases ihp _ h with h1 | ⟨q, hq, hxq⟩
            · rcases ih p (cd + 1) ⟨st'.visited, st'.acc.insert p⟩ x h1 with h2 | h2
              · rcases List.mem_insert_iff.mp h2 with h3 | h3
                · exact Or.inr ⟨p, List.mem_cons_self _ _, Or.inl h3⟩
                · exact Or.inl h3
              · exact Or.inr ⟨p, List.mem_cons_self _ _, Or.inr h2⟩
            · exact Or.inr ⟨q, List.mem_cons_of_mem _ hq, hxq⟩
        rcases aux (adj node) _ hx with h1 | ⟨p, hp, hxp⟩
        · exact Or.inl h1
        · rcases hxp with rfl | hxp
          · exact Or.inr (Relation.TransGen.single hp)
          · exact Or.inr (Relation.TransGen.tail hxp hp)

/-- Count of graph names not yet visited: the termination measure that the
fuel dominates. -/
def travMeasure (all : List String) (st : TravState) : Nat :=
  (all.toFinset.filter (fun v => v ∉ st.visited)).card

theorem travMeasure_le_of_subset (all : List String) {st st' : TravState}
    (h : ∀ x, x ∈ st.visited → x ∈ st'.visited) :
    travMeasure all st' ≤ travMeasure all st := by
  apply Finset.card_le_card
  intro v hv
  rw [Finset.mem_filter] at hv ⊢
  exact ⟨hv.1, fun hmem => hv.2 (h v hmem)⟩

theorem travMeasure_lt_cons (all : List String) (st : TravState)
    {n : String} (hall : n ∈ all) (hv : n ∉ st.visited) (acc : List String) :
    travMeasure all ⟨n :: st.visited, acc⟩ < travMeasure all st := by
  apply Finset.card_lt_card
  rw [Finset.ssubset_iff_of_subset]
  · exact ⟨n, by simp [travMeasure, hall, hv], by simp [travMeasure]⟩
  · intro v hmem
    rw [Finset.mem_filter] at hmem ⊢
    refine ⟨hmem.1, fun h => hmem.2 (List.mem_cons_of_mem _ h)⟩

/-- A node of a traversal state is closed when all of its adjacent nodes have
already been both accumulated and visited. -/
def Closed (adj : String → List String) (st : TravState) (v : String) : Prop :=
  ∀ p ∈ adj v, p ∈ st.acc ∧ p ∈ st.visited

/-- The DFS invariant: every visited node is either still gray (on the
recursion stack) or closed. -/
def Inv (adj : String → List String) (st : TravState)
    (gray : List String) : Prop :=
  ∀ v ∈ st.visited, v ∈ gray ∨ Closed adj st v

theorem Closed.mono {adj : String → List String} {st st' : TravState}
    {v : String}
    (hvis : ∀ x, x ∈ st.visited → x ∈ st'.visited)
    (hacc : ∀ x, x ∈ st.acc → x ∈ st'.acc)
    (h : Closed adj st v) : Closed adj st' v :=
  fun p hp => ⟨hacc p (h p hp).1, hvis p (h p hp).2⟩

/-- Main closure lemma: with no cutoff and enough fuel, a call on `node`
preserves the invariant, grows the state monotonically, and leaves `node`
visited. -/
theorem traverse_closure (adj : String → List String) (cutoff : Nat → Bool)
    (all : List String)
    (hadj : ∀ b p, p ∈ adj b → p ∈ all)
    (hcut : ∀ cd, cutoff cd = false) :
    ∀ (fuel : Nat) (node : String) (cd : Nat) (st : TravState)
      (gray : List String),
      node ∈ all →
      travMeasure all st < fuel →
      (∀ x, x ∈ gray → x ∈ st.visited) →
      Inv adj st gray →
      (∀ x, x ∈ st.visited →
        x ∈ (traverse adj cutoff fuel node cd st).visited) ∧
      (∀ x, x ∈ st.acc → x ∈ (traverse adj cutoff fuel node cd st).acc) ∧
      node ∈ (traverse adj cutoff fuel node cd st).visited ∧
      Inv adj (traverse adj cutoff fuel node cd st) gray := by
  intro fuel
  induction fuel with
  | zero =>
    intro node cd st gray _ hm _ _
    exact absurd hm (Nat.not_lt_zero _)
  | succ f ih =>
    intro node cd st gray hnode hm hgray hinv
    rw [traverse]
    by_cases hv : node ∈ st.visited
    · rw [if_pos hv]
      exact ⟨fun x hx => hx, fun x hx => hx, hv, hinv⟩
    · rw [if_neg hv, if_neg (by rw [hcut cd]; exact Bool.false_ne_true)]
      set st1 : TravState := ⟨node :: st.visited, st.acc⟩ with hst1
      -- The fold over the adjacency list, with `node` freshly gray.
      have hm1 : travMeasure all st1 < f := by
        have h1 : travMeasure all st1 < travMeasure all st :=
          travMeasure_lt_cons all st hnode hv st.acc
        omega
      have haux : ∀ (ps : List String) (st' : TravState),
          (∀ p, p ∈ ps → p ∈ all) →
          travMeasure all st' ≤ travMeasure all st1 →
          (∀ x, x ∈ node :: gray → x ∈ st'.visited) →
          Inv adj st' (node :: gray) →
          (∀ x, x ∈ st'.visited →
            x ∈ (ps.foldl (fun s p =>
              traverse adj cutoff f p (cd + 1)
                ⟨s.visited, s.acc.insert p⟩) st').visited) ∧
          (∀ x, x ∈ st'.acc →
            x ∈ (ps.foldl (fun s p =>
              traverse adj cutoff f p (cd + 1)
                ⟨s.visited, s.acc.insert p⟩) st').acc) ∧
          Inv adj (ps.foldl (fun s p =>
            traverse adj cutoff f p (cd + 1)
              ⟨s.visited, s.acc.insert p⟩) st') (node :: gray) ∧
          (∀ p, p ∈ ps →
            p ∈ (ps.foldl (fun s p =>
              traverse adj cutoff f p (cd + 1)
                ⟨s.visited, s.acc.insert p⟩) st').acc ∧
            p ∈ (ps.foldl (fun s p =>
              traverse adj cutoff f p (cd + 1)
                ⟨s.visited, s.acc.insert p⟩) st').visited) := by
        intro ps
        induction ps with
        | nil =>
          intro st' _ _ _ hinv'
          exact ⟨fun x hx => hx, fun x hx => hx, hinv', fun p hp => absurd hp (by simp)⟩
        | cons p ps ihp =>
          intro st' hps hm' hgray' hinv'
          rw [List.foldl_cons]
          set stp : TravState := ⟨st'.visited, st'.acc.insert p⟩ with hstp
          have hpall : p ∈ all := hps p (List.mem_cons_self _ _)
          have hmp : travMeasure all stp < f := by
            have : travMeasure all stp = travMeasure all st' := rfl
            omega
          have hinvp : Inv adj stp (node :: gray) := by
            intro v hvmem
            rcases hinv' v hvmem with h | h
            · exact Or.inl h
            · refine Or.inr (fun q hq => ⟨?_, ?_⟩)
              · rw [hstp]; exact List.mem_insert_of_mem (h q hq).1
              · rw [hstp]; exact (h q hq).2
          have hgrayp : ∀ x, x ∈ node :: gray → x ∈ stp.visited := hgray'
          obtain ⟨hv1, ha1, hvisp, hinv1⟩ :=
            ih p (cd + 1) stp (node :: gray) hpall hmp hgrayp hinvp
          set st2 := traverse adj cutoff f p (cd + 1) stp with hst2
          have hm2 : travMeasure all st2 ≤ travMeasure all st1 := by
            have h1 : travMeasure all st2 ≤ travMeasure all stp :=
              travMeasure_le_of_subset all hv1
            have h2 : travMeasure all stp = travMeasure all st' := rfl
            omega
          have hgray2 : ∀ x, x ∈ node :: gray → x ∈ st2.visited :=
            fun x hx => hv1 x (hgray' x hx)
          obtain ⟨hv3, ha3, hinv3, hmem3⟩ := ihp st2 (fun q hq =>
            hps q (List.mem_cons_of_mem _ hq)) hm2 hgray2 hinv1
          refine ⟨fun x hx => hv3 x (hv1 x hx),
            fun x hx => ha3 x (ha1 x (by rw [hstp]; exact List.mem_insert_of_mem hx)),
            hinv3, fun q hq => ?_⟩
          rcases List.mem_cons.mp hq with rfl | hq'
          · exact ⟨ha3 q (ha1 q (by rw [hstp]; exact List.mem_insert_self _ _)), hv3 q hvisp⟩
          · exact hmem3 q hq'
      have hgray1 : ∀ x, x ∈ node :: gray → x ∈ st1.visited := by
        intro x hx
        rcases List.mem_cons.mp hx with rfl | hx'
        · exact List.mem_cons_self _ _
        · exact List.mem_cons_of_mem _ (hgray x hx')
      have hinv1 : Inv adj st1 (node :: gray) := by
        intro v hvmem
        rcases List.mem_cons.mp hvmem with rfl | hv'
        · exact Or.inl (List.mem_cons_self _ _)
        · rcases hinv v hv' with h | h
          · exact Or.inl (List.mem_cons_of_mem _ h)
          · exact Or.inr (h.mono (fun x hx => List.mem_cons_of_mem _ hx)
              (fun x hx => hx))
      obtain ⟨hv4, ha4, hinv4, hmem4⟩ := haux (adj node) st1
        (fun p hp => hadj node p hp) (le_refl _) hgray1 hinv1
      refine ⟨fun x hx => hv4 x (List.mem_cons_of_mem _ hx),
        ha4, hv4 node (List.mem_cons_self _ _), ?_⟩
      -- `node` is now closed, so the invariant descends from
      -- `node :: gray` back to `gray`.
      intro v hvmem
      rcases hinv4 v hvmem with h | h
      · rcases List.mem_cons.mp h with rfl | h'
        · exact Or.inr (fun p hp => hmem4 p hp)
        · exact Or.inl h'
      · exact Or.inr h

theorem travMeasure_init_le (all : List String) :
    travMeasure all ⟨[], []⟩ ≤ all.length := by
  rw [travMeasure]
  exact (Finset.card_filter_le _ _).trans all.toFinset_card_le

/-- The unbounded traversal started on `root` with empty state accumulates
exactly the strict ancestors of `root` along the step relation. -/
theorem traverse_acc_iff (adj : String → List String) (cutoff : Nat → Bool)
    (all : List String)
    (hadj : ∀ b p, p ∈ adj b → p ∈ all)
    (hcut : ∀ cd, cutoff cd = false)
    (root : String) (hroot : root ∈ all) (x : String) :
    x ∈ (traverse adj cutoff (all.length + 1) root 0 ⟨[], []⟩).acc ↔
      Relation.TransGen (stepRel adj) x root := by
  constructor
  · intro hx
    rcases traverse_sound adj cutoff _ root 0 ⟨[], []⟩ x hx with h | h
    · exact absurd h (List.not_mem_nil x)
    · exact h
  · intro hx
    have hm : travMeasure all ⟨[], []⟩ < all.length + 1 :=
      Nat.lt_succ_of_le (travMeasure_init_le all)
    obtain ⟨_, _, hrootvis, hinv⟩ := traverse_closure adj cutoff all hadj hcut
      (all.length + 1) root 0 ⟨[], []⟩ [] hroot hm
      (fun x hx => absurd hx (List.not_mem_nil x))
      (fun v hv => absurd hv (List.not_mem_nil v))
    -- Every visited node of the final state is closed; walk the path down.
    have key : ∀ (y : String), Relation.TransGen (stepRel adj) y root →
        y ∈ (traverse adj cutoff (all.length + 1) root 0 ⟨[], []⟩).acc ∧
        y ∈ (traverse adj cutoff (all.length + 1) root 0 ⟨[], []⟩).visited := by
      intro y hy
      induction hy using Relation.TransGen.head_induction_on with
      | base h =>
        rcases hinv root hrootvis with hg | hcl
        · exact absurd hg (List.not_mem_nil root)
        · exact hcl _ h
      | ih h _ hP =>
        rcases hinv _ hP.2 with hg | hcl
        · exact absurd hg (List.not_mem_nil _)
        · exact hcl _ h
    exact (key x hx).1

theorem mem_allNodes_of_node {g : DependencyGraph} {s : String}
    (h : s ∈ g.nodes) : s ∈ allNodes g := by
  rw [allNodes, List.mem_dedup]
  exact List.mem_append_left _ (List.mem_append_left _ h)

theorem preds_sub_allNodes (g : DependencyGraph) (b p : String)
    (h : p ∈ preds g b) : p ∈ allNodes g := by
  rw [preds] at h
  rcases List.mem_map.mp h with ⟨e, he, rfl⟩
  rw [allNodes, List.mem_dedup]
  exact List.mem_append_left _ (List.mem_append_right _
    (List.mem_map_of_mem _ (List.mem_of_mem_filter he)))

theorem succs_sub_allNodes (g : DependencyGraph) (b p : String)
    (h : p ∈ succs g b) : p ∈ allNodes g := by
  rw [succs] at h
  rcases List.mem_map.mp h with ⟨e, he, rfl⟩
  rw [allNodes, List.mem_dedup]
  exact List.mem_append_right _
    (List.mem_map_of_mem _ (List.mem_of_mem_filter he))

/-- Membership in unbounded `get_callers`: exactly the symbols with a
nonempty forward path to `symbol`. -/
theorem mem_get_callers_none (g : DependencyGraph) (s : String)
    (hs : hasNodeB g s = true) (x : String) :
    x ∈ get_callers g s none ↔
      Relation.TransGen (stepRel (preds g)) x s := by
  rw [get_callers, if_pos hs, mem_sortStrs]
  exact traverse_acc_iff (preds g) (callersCutoff none) (allNodes g)
    (preds_sub_allNodes g) (fun _ => rfl) s
    (mem_allNodes_of_node (by rwa [hasNodeB, decide_eq_true_eq] at hs)) x

/-- Membership in unbounded `get_callees`: exactly the symbols with a
nonempty backward path from `symbol`. -/
theorem mem_get_callees_none (g : DependencyGraph) (s : String)
    (hs : hasNodeB g s = true) (x : String) :
    x ∈ get_callees g s none ↔
      Relation.TransGen (stepRel (succs g)) x s := by
  rw [get_callees, if_pos hs, mem_sortStrs]
  exact traverse_acc_iff (succs g) (calleesCutoff none) (allNodes g)
    (succs_sub_allNodes g) (fun _ => rfl) s
    (mem_allNodes_of_node (by rwa [hasNodeB, decide_eq_true_eq] at hs)) x

/-- Soundness of depth-bounded `get_callers`: anything returned reaches
`symbol` through at least one edge. -/
theorem get_callers_sound (g : DependencyGraph) (s : String)
    (d : Option Int) (x : String) (hx : x ∈ get_callers g s d) :
    Relation.TransGen (stepRel (preds g)) x s := by
  rw [get_callers] at hx
  by_cases hs : hasNodeB g s = true
  · rw [if_pos hs, mem_sortStrs] at hx
    rcases traverse_sound _ _ _ s 0 ⟨[], []⟩ x hx with h | h
    · exact absurd h (List.not_mem_nil x)
    · exact h
  · rw [if_neg hs] at hx
    exact absurd hx (List.not_mem_nil x)

/-- A call whose depth is already cut off accumulates nothing. -/
theorem traverse_cutoff_acc (adj : String → List String) (cutoff : Nat → Bool)
    (fuel : Nat) (node : String) (cd : Nat) (st : TravState)
    (hc : cutoff cd = true) :
    (traverse adj cutoff fuel node cd st).acc = st.acc := by
  rcases fuel with _ | f
  · rw [traverse]
  · rw [traverse]
    by_cases hv : node ∈ st.visited
    · rw [if_pos hv]
    · rw [if_neg hv, if_pos hc]

/-- When the children's depth is cut off, the fold over an adjacency list
only inserts the adjacent nodes themselves. -/
theorem traverse_fold_cutoff_acc (adj : String → List String)
    (cutoff : Nat → Bool) (f cd : Nat) (hc : cutoff cd = true) :
    ∀ (ps : List String) (st : TravState),
      ((ps.foldl (fun s p =>
        traverse adj cutoff f p cd ⟨s.visited, s.acc.insert p⟩) st).acc) =
        ps.foldl (fun a p => a.insert p) st.acc := by
  intro ps
  induction ps with
  | nil => intro st; rfl
  | cons p ps ihp =>
    intro st
    rw [List.foldl_cons, List.foldl_cons, ihp,
      traverse_cutoff_acc adj cutoff f p cd ⟨st.visited, st.acc.insert p⟩ hc]

/-! ### Claim C3: spec-side formulation and impact-loop lemmas -/

/-- Written from the claim's words (C3): the union, over the changed symbols
present in the graph, of the unbounded `get_callers`. -/
def specDirectImpacts (g : DependencyGraph) (symbols : List String) :
    List String :=
  (symbols.filter (fun s => hasNodeB g s)).flatMap
    (fun s => get_callers g s none)

/-- Written from the claim's words (C3): the union over each direct-impact
node `c` of `get_callers(c, depth = max_depth - 1 if max_depth else None)`,
with every node already in the direct impacts removed. -/
def specTransitiveImpacts (g : DependencyGraph) (symbols : List String)
    (max_depth : Option Int) : List String :=
  ((specDirectImpacts g symbols).flatMap
    (fun c => get_callers g c (pythonDepth max_depth))).filter
    (fun x => !decide (x ∈ specDirectImpacts g symbols))

theorem specDirectImpacts_cons (g : DependencyGraph) (s : String)
    (rest : List String) :
    specDirectImpacts g (s :: rest) =
      if hasNodeB g s then get_callers g s none ++ specDirectImpacts g rest
      else specDirectImpacts g rest := by
  rw [specDirectImpacts, List.filter_cons]
  by_cases h : hasNodeB g s = true
  · rw [if_pos h, if_pos h, List.flatMap_cons]; rfl
  · rw [if_neg h, if_neg h]; rfl

theorem impactDT_direct_mem (g : DependencyGraph) (md : Option Int) :
    ∀ (symbols : List String) (init : List String × List String) (x : String),
      (x ∈ (symbols.foldl (impactStep g md) init).1 ↔
        x ∈ init.1 ∨ x ∈ specDirectImpacts g symbols) := by
  intro symbols
  induction symbols with
  | nil =>
    intro init x
    rw [List.foldl_nil]
    simp [specDirectImpacts]
  | cons s rest ih =>
    intro init x
    rw [List.foldl_cons, ih, specDirectImpacts_cons]
    by_cases h : hasNodeB g s = true
    · rw [if_pos h]
      have hstep : (impactStep g md init s).1 =
          (get_callers g s none).foldl (fun d c => d.insert c) init.1 := by
        rw [impactStep, if_pos h]
      rw [hstep, foldl_insert_mem, List.mem_append]
      tauto
    · rw [if_neg h]
      have hstep : impactStep g md init s = init := by
        rw [impactStep, if_neg h]
      rw [hstep]

/-- If every element of `l` is already in `d`, the filtered-insert fold over
`l` changes nothing. -/
theorem foldl_guard_insert_id (d : List String) :
    ∀ (l t : List String), (∀ x ∈ l, x ∈ d) →
      l.foldl (fun t x => if x ∈ d then t else t.insert x) t = t := by
  intro l
  induction l with
  | nil => intro t _; rfl
  | cons x xs ih =>
    intro t h
    rw [List.foldl_cons, if_pos (h x (List.mem_cons_self _ _))]
    exact ih t (fun y hy => h y (List.mem_cons_of_mem _ hy))

/-- Each loop iteration of `analyze_impact` leaves `transitive_impacts`
empty: every candidate reaches the changed symbol through its caller, hence
already sits in `direct_impacts` when the membership test runs. -/
theorem impactStep_trans_nil (g : DependencyGraph) (md : Option Int)
    (acc : List String × List String) (s : String) (h : acc.2 = []) :
    (impactStep g md acc s).2 = [] := by
  rw [impactStep]
  by_cases hn : hasNodeB g s = true
  · rw [if_pos hn]
    have hkey : ∀ c ∈ get_callers g s none,
        ∀ x ∈ get_callers g c (pythonDepth md),
          x ∈ (get_callers g s none).foldl (fun d c => d.insert c) acc.1 := by
      intro c hc x hx
      have h1 : Relation.TransGen (stepRel (preds g)) x c :=
        get_callers_sound g c (pythonDepth md) x hx
      have h2 : Relation.TransGen (stepRel (preds g)) c s :=
        get_callers_sound g s none c hc
      have h3 : x ∈ get_callers g s none :=
        (mem_get_callers_none g s hn x).mpr (h1.trans h2)
      exact (foldl_insert_mem _ _).mpr (Or.inr h3)
    have hfold : ∀ (cs : List String) (t : List String),
        (∀ c ∈ cs, ∀ x ∈ get_callers g c (pythonDepth md),
          x ∈ (get_callers g s none).foldl (fun d c => d.insert c) acc.1) →
        cs.foldl (fun t c =>
          (get_callers g c (pythonDepth md)).foldl
            (fun t x =>
              if x ∈ (get_callers g s none).foldl (fun d c => d.insert c) acc.1
              then t else t.insert x) t) t = t := by
      intro cs
      induction cs with
      | nil => intro t _; rfl
      | cons c cs ihc =>
        intro t hcs
        rw [List.foldl_cons,
          foldl_guard_insert_id _ _ t (hcs c (List.mem_cons_self _ _))]
        exact ihc t (fun c' hc' => hcs c' (List.mem_cons_of_mem _ hc'))
    simpa [h] using hfold (get_callers g s none) acc.2 hkey
  · rw [if_neg hn]; exact h

theorem impactDT_trans_nil (g : DependencyGraph) (md : Option Int) :
    ∀ (symbols : List String) (init : List String × List String),
      init.2 = [] → (symbols.foldl (impactStep g md) init).2 = [] := by
  intro symbols
  induction symbols with
  | nil => intro init h; exact h
  | cons s rest ih =>
    intro init h
    rw [List.foldl_cons]
    exact ih _ (impactStep_trans_nil g md init s h)

/-- The claim-side transitive set is empty for the same reason. -/
theorem specTransitiveImpacts_nil (g : DependencyGraph)
    (symbols : List String) (md : Option Int) (x : String) :
    x ∉ specTransitiveImpacts g symbols md := by
  intro hx
  rw [specTransitiveImpacts, List.mem_filter] at hx
  rcases hx with ⟨hmem, hnot⟩
  rw [Bool.not_eq_eq_eq_not, Bool.not_true, decide_eq_false_iff_not] at hnot
  apply hnot
  rcases List.mem_flatMap.mp hmem with ⟨c, hc, hxc⟩
  rw [specDirectImpacts] at hc
  rcases List.mem_flatMap.mp hc with ⟨s, hs, hcs⟩
  have hsn : hasNodeB g s = true := (List.mem_filter.mp hs).2
  have h1 : Relation.TransGen (stepRel (preds g)) x c :=
    get_callers_sound g c (pythonDepth md) x hxc
  have h2 : Relation.TransGen (stepRel (preds g)) c s :=
    get_callers_sound g s none c hcs
  have h3 : x ∈ get_callers g s none :=
    (mem_get_callers_none g s hsn x).mpr (h1.trans h2)
  rw [specDirectImpacts]
  exact List.mem_flatMap.mpr ⟨s, hs, h3⟩

/-- C3: `analyze_impact` computes `direct_impacts` as the union over the
changed symbols present in the graph of the unbounded `get_callers`, and
`transitive_impacts` as the union over direct-impact nodes of the
depth-shifted `get_callers` minus the direct impacts (both sides of the
latter are in fact always empty, because a caller-of-a-caller is itself
a transitive caller and hence a direct impact). -/
theorem C3_theorem (g : DependencyGraph) (symbols : List String)
    (md : Option Int) (x : String) :
    (x ∈ (analyze_impact g symbols md).direct_impacts ↔
      x ∈ specDirectImpacts g symbols) ∧
    (x ∈ (analyze_impact g symbols md).transitive_impacts ↔
      x ∈ specTransitiveImpacts g symbols md) := by
  constructor
  · have hd : (analyze_impact g symbols md).direct_impacts =
        sortStrs (impactDT g symbols md).1 := rfl
    rw [hd, mem_sortStrs, impactDT, impactDT_direct_mem]
    simp
  · have ht : (analyze_impact g symbols md).transitive_impacts =
        sortStrs (impactDT g symbols md).2 := rfl
    rw [ht, mem_sortStrs, impactDT, impactDT_trans_nil g md symbols ([], []) rfl]
    simp [specTransitiveImpacts_nil g symbols md x]

/-! ### Claims C4 and C8: the risk score -/

/-- Written from the claim's words (C4, original form): the risk formula with
a case-sensitive containment test `"test" in name`. -/
def claimRiskFormula (affected transitive : List String) : Int :=
  max 0 (min 100 (min 50 (5 * (affected.length : Int)) +
    min 30 (2 * (transitive.length : Int)) -
    (if affected.any (fun s => strContainsB s "test") then 10 else 0)))

/-- The amended (C4) risk formula: identical except that the containment
test lowercases the name first, as `_has_tests` does. -/
def amendedRiskFormula (affected transitive : List String) : Int :=
  max 0 (min 100 (min 50 (5 * (affected.length : Int)) +
    min 30 (2 * (transitive.length : Int)) -
    (if affected.any (fun s => strContainsB (lowerStr s) "test") then 10 else 0)))

theorem risk_eq_amended (A T : List String) :
    calculate_risk_score A T.length (has_tests A) =
      amendedRiskFormula (sortStrs A) (sortStrs T) := by
  rw [amendedRiskFormula, calculate_risk_score, has_tests, length_sortStrs,
    length_sortStrs, any_sortStrs]
  rcases A.any (fun s => strContainsB (lowerStr s) "test") with _ | _ <;>
    · simp only [if_true, if_false, Bool.false_eq_true]
      omega

/-- C4 counterexample: on the graph `Test_a → s`, the analysis of `["s"]`
returns risk score 0 (the code's case-insensitive test deducts 10 and the
result clamps at 0), while the claim's formula — with a case-sensitive
`"test" in name` — yields 5. -/
theorem C4_counterexample :
    (analyze_impact gTestCase ["s"] none).risk_score = 0 ∧
    claimRiskFormula (analyze_impact gTestCase ["s"] none).affected_symbols
      (analyze_impact gTestCase ["s"] none).transitive_impacts = 5 := by
  decide

/-- C4 (amended): the returned risk score equals
`min(50, 5×|affected|) + min(30, 2×|transitive|) − (10 if any affected
symbol's lowercased name contains "test" else 0)`, clamped to `[0,100]` —
the claim's formula with the containment test made case-insensitive. -/
theorem C4_amended (g : DependencyGraph) (symbols : List String)
    (md : Option Int) :
    (analyze_impact g symbols md).risk_score =
      amendedRiskFormula (analyze_impact g symbols md).affected_symbols
        (analyze_impact g symbols md).transitive_impacts := by
  have h : (analyze_impact g symbols md).risk_score =
      calculate_risk_score (impactAll g symbols md)
        (impactDT g symbols md).2.length (has_tests (impactAll g symbols md)) :=
    rfl
  rw [h, risk_eq_amended]
  rfl

/-- C8 counterexample: with an empty affected list and transitive depth 0,
both scores clamp to 0, so the `has_tests=True` score is not strictly less
than the `has_tests=False` one. -/
theorem C8_counterexample :
    calculate_risk_score [] 0 true = 0 ∧
    calculate_risk_score [] 0 false = 0 ∧
    ¬calculate_risk_score [] 0 true < calculate_risk_score [] 0 false := by
  decide

/-- C8 (amended): whenever the affected list is nonempty or the transitive
count is positive, the score with `has_tests=True` is strictly below the
score with `has_tests=False`; in the remaining case (no affected symbols,
zero transitive count) both scores are 0. -/
theorem C8_amended (affected : List String) (depth : Nat)
    (h : affected ≠ [] ∨ 0 < depth) :
    calculate_risk_score affected depth true <
      calculate_risk_score affected depth false := by
  have h' : 1 ≤ affected.length ∨ 1 ≤ depth := by
    rcases h with h | h
    · exact Or.inl (List.length_pos.mpr h)
    · exact Or.inr h
  simp only [calculate_risk_score, if_true, if_false, min_def, max_def]
  split_ifs <;> first | omega | exact (by assumption : False).elim

/-- C8 witness: one affected symbol, depth 0. -/
theorem C8_witness :
    ((["a"] : List String) ≠ [] ∨ 0 < 0) ∧
    calculate_risk_score ["a"] 0 true < calculate_risk_score ["a"] 0 false :=
  ⟨Or.inl (by decide), C8_amended ["a"] 0 (Or.inl (by decide))⟩

/-! ### Claim C1 -/

/-- C1 counterexample: the claim says `get_callers(symbol, depth=0)` is empty
for every graph and present symbol, but on the graph with the single edge
`b → a` the call `get_callers("a", depth=0)` returns `["b"]` — the `>` cutoff
of `get_callers` fires only after the direct predecessors were added. -/
theorem C1_counterexample :
    hasNodeB gPredOne "a" = true ∧
    get_callers gPredOne "a" (some 0) = ["b"] ∧
    get_callers gPredOne "a" (some 0) ≠ [] := by decide

/-- C1 (amended): with `depth=0`, `get_callees` returns the empty list for
every graph and present symbol (its `>=` cutoff fires before any hop), while
`get_callers` returns exactly the set of direct predecessors (its `>` cutoff
lets the first hop through). -/
theorem C1_amended (g : DependencyGraph) (s : String)
    (hs : hasNodeB g s = true) :
    get_callees g s (some 0) = [] ∧
    (get_callers g s (some 0)).toFinset = (preds g s).toFinset := by
  constructor
  · rw [get_callees, if_pos hs, traverse]
    rw [if_neg (List.not_mem_nil s),
      if_pos (show calleesCutoff (some 0) 0 = true by decide)]
    rfl
  · ext x
    rw [List.mem_toFinset, List.mem_toFinset, get_callers, if_pos hs,
      mem_sortStrs, traverse]
    rw [if_neg (List.not_mem_nil s),
      if_neg (show ¬callersCutoff (some 0) 0 = true by decide)]
    rw [traverse_fold_cutoff_acc (preds g) (callersCutoff (some 0))
      (allNodes g).length 1 (by decide), foldl_insert_mem]
    simp

/-- C1 witness: the amended statement evaluated on the single-edge graph. -/
theorem C1_witness :
    hasNodeB gPredOne "a" = true ∧
    get_callees gPredOne "a" (some 0) = [] ∧
    (get_callers gPredOne "a" (some 0)).toFinset =
      (preds gPredOne "a").toFinset :=
  ⟨by decide, (C1_amended gPredOne "a" (by decide)).1,
    (C1_amended gPredOne "a" (by decide)).2⟩

/-! ### Claim C2 -/

/-- C2: on the chain `a→b→c→d→e`, `get_callees("a", 1) = ["b"]`,
`get_callees("a", 2)` contains `b` and `c` but not `d` (cutoff
`current_depth >= depth`), while `get_callers("e", 1)` — the same chain
walked backward from its tail — also contains `c`, the node two backward
hops away (looser cutoff `current_depth > depth`). -/
theorem C2_theorem :
    get_callees gChain5 "a" (some 1) = ["b"] ∧
    "b" ∈ get_callees gChain5 "a" (some 2) ∧
    "c" ∈ get_callees gChain5 "a" (some 2) ∧
    "d" ∉ get_callees gChain5 "a" (some 2) ∧
    "d" ∈ get_callers gChain5 "e" (some 1) ∧
    "c" ∈ get_callers gChain5 "e" (some 1) := by decide

/-! ### Claim C6 -/

/-- C6: in any graph containing the cycle `a→b→c→a`, the unbounded
`get_callers("a")` and `get_callees("a")` both return (the traversal is a
total function, so it terminates by construction) and both contain the other
two nodes of the cycle. -/
theorem C6_theorem (g : DependencyGraph) (a b c : String)
    (hab : hasEdgeB g a b = true) (hbc : hasEdgeB g b c = true)
    (hca : hasEdgeB g c a = true) (ha : hasNodeB g a = true) :
    (b ∈ get_callers g a none ∧ c ∈ get_callers g a none) ∧
    (b ∈ get_callees g a none ∧ c ∈ get_callees g a none) := by
  have edge_mem : ∀ {f t : String}, hasEdgeB g f t = true →
      f ∈ preds g t ∧ t ∈ succs g f := by
    intro f t h
    rw [hasEdgeB, List.any_eq_true] at h
    rcases h with ⟨e, he, hprop⟩
    rw [matchB, Bool.and_eq_true, decide_eq_true_eq, decide_eq_true_eq] at hprop
    constructor
    · rw [preds]
      exact hprop.1 ▸ List.mem_map_of_mem _
        (List.mem_filter.mpr ⟨he, by rw [decide_eq_true_eq]; exact hprop.2⟩)
    · rw [succs]
      exact hprop.2 ▸ List.mem_map_of_mem _
        (List.mem_filter.mpr ⟨he, by rw [decide_eq_true_eq]; exact hprop.1⟩)
  refine ⟨⟨?_, ?_⟩, ?_, ?_⟩
  · rw [mem_get_callers_none g a ha]
    exact Relation.TransGen.head (edge_mem hbc).1
      (Relation.TransGen.single (edge_mem hca).1)
  · rw [mem_get_callers_none g a ha]
    exact Relation.TransGen.single (edge_mem hca).1
  · rw [mem_get_callees_none g a ha]
    exact Relation.TransGen.single (edge_mem hab).2
  · rw [mem_get_callees_none g a ha]
    exact Relation.TransGen.head (edge_mem hbc).2
      (Relation.TransGen.single (edge_mem hab).2)

/-- C6 witness: the cycle graph `a→b→c→a` itself. -/
theorem C6_witness :
    (hasEdgeB gCycle "a" "b" = true ∧ hasEdgeB gCycle "b" "c" = true ∧
     hasEdgeB gCycle "c" "a" = true ∧ hasNodeB gCycle "a" = true) ∧
    (("b" ∈ get_callers gCycle "a" none ∧ "c" ∈ get_callers gCycle "a" none) ∧
     ("b" ∈ get_callees gCycle "a" none ∧ "c" ∈ get_callees gCycle "a" none)) :=
  ⟨⟨by decide, by decide, by decide, by decide⟩,
    C6_theorem gCycle "a" "b" "c" (by decide) (by decide) (by decide) (by decide)⟩

/-! ### Claim C7 -/

/-- C7: on the pure cycle `a→b→c→a`, `find_cycles` returns exactly one cycle,
sorted as `["a","b","c"]`; on the acyclic chain `a→b→c` it returns `[]`. -/
theorem C7_theorem :
    find_cycles gCycle = [["a", "b", "c"]] ∧ find_cycles gChain3 = [] := by
  decide

/-! ### Claims C5 and C10: edge insertion -/

/-- Graph wellformedness: at most one edge per `(from,to)` pair, as in a
NetworkX `DiGraph` (holds for every graph built through `add_dependency`). -/
def edgeKeysNodup (g : DependencyGraph) : Prop :=
  (g.edges.map (fun e => (e.src, e.dst))).Nodup

/-- Graph wellformedness: no duplicate entries inside a location list
(`add_dependency` never appends a location already present). -/
def locsNodup (g : DependencyGraph) : Prop :=
  ∀ e ∈ g.edges, e.locations.Nodup

theorem add_dependency_edges_new {g : DependencyGraph} {f t : String}
    (k : String) (loc : Option String) (h : hasEdgeB g f t = false) :
    (add_dependency g f t k loc).edges =
      g.edges ++ [⟨f, t, k, pushLoc loc []⟩] := by
  rw [add_dependency, if_neg (by rw [h]; exact Bool.false_ne_true)]

theorem add_dependency_edges_upd {g : DependencyGraph} {f t : String}
    (k : String) (loc : Option String) (h : hasEdgeB g f t = true) :
    (add_dependency g f t k loc).edges = g.edges.map (updEdge f t loc) := by
  rw [add_dependency, if_pos h]

theorem updEdge_src (f t : String) (loc : Option String) (e : DepEdge) :
    (updEdge f t loc e).src = e.src := by
  rw [updEdge]; split <;> rfl

theorem updEdge_dst (f t : String) (loc : Option String) (e : DepEdge) :
    (updEdge f t loc e).dst = e.dst := by
  rw [updEdge]; split <;> rfl

theorem updEdge_kind (f t : String) (loc : Option String) (e : DepEdge) :
    (updEdge f t loc e).kind = e.kind := by
  rw [updEdge]; split <;> rfl

theorem matchB_updEdge (f t f' t' : String) (loc : Option String)
    (e : DepEdge) : matchB f' t' (updEdge f t loc e) = matchB f' t' e := by
  rw [matchB, matchB, updEdge_src, updEdge_dst]

theorem filter_map_updEdge (f t : String) (loc : Option String)
    (es : List DepEdge) :
    (es.map (updEdge f t loc)).filter (matchB f t) =
      (es.filter (matchB f t)).map (updEdge f t loc) := by
  induction es with
  | nil => rfl
  | cons e es ih =>
    rw [List.map_cons, List.filter_cons, List.filter_cons, matchB_updEdge]
    rcases h : matchB f t e with _ | _
    · simpa using ih
    · simpa using ih

theorem filter_match_nil {g : DependencyGraph} {f t : String}
    (h : hasEdgeB g f t = false) : g.edges.filter (matchB f t) = [] := by
  rw [List.filter_eq_nil_iff]
  intro e he
  rw [hasEdgeB, List.any_eq_false] at h
  exact fun hc => absurd (h e he) (by simp [hc])

/-- With unique `(from,to)` keys, at most one edge matches. -/
theorem filter_match_len_le_one {es : List DepEdge} {f t : String}
    (h : (es.map (fun e => (e.src, e.dst))).Nodup) :
    (es.filter (matchB f t)).length ≤ 1 := by
  induction es with
  | nil => simp
  | cons e es ih =>
    rw [List.map_cons, List.nodup_cons] at h
    rw [List.filter_cons]
    rcases hm : matchB f t e with _ | _
    · simpa using ih h.2
    · have hrest : es.filter (matchB f t) = [] := by
        rw [List.filter_eq_nil_iff]
        intro e' he' hc
        apply h.1
        rw [matchB, Bool.and_eq_true, decide_eq_true_eq, decide_eq_true_eq] at hm hc
        rw [show (e.src, e.dst) = (e'.src, e'.dst) by
          rw [hm.1, hm.2, hc.1, hc.2]]
        exact List.mem_map_of_mem _ he'
      simp [hrest]

theorem count_pushLoc_some {l : String} (hl : l ≠ "") {ls : List String}
    (hnd : ls.Nodup) :
    (pushLoc (some l) ls).count l = 1 ∧ (pushLoc (some l) ls).Nodup := by
  rw [pushLoc, if_neg hl]
  by_cases hmem : l ∈ ls
  · rw [if_pos hmem]
    exact ⟨List.count_eq_one_of_mem hnd hmem, hnd⟩
  · rw [if_neg hmem]
    constructor
    · rw [List.count_append, List.count_eq_zero_of_not_mem hmem]
      simp
    · exact List.Nodup.append hnd (List.nodup_singleton l)
        (by simpa using hmem)

theorem pushLoc_mem_id {l : String} {ls : List String} (hmem : l ∈ ls) :
    pushLoc (some l) ls = ls := by
  rw [pushLoc]
  by_cases hl : l = ""
  · rw [if_pos hl]
  · rw [if_neg hl, if_pos hmem]

/-- C5 counterexample: the claim quantifies over every supplied location, but
calling `add_dependency` twice with `location=""` (falsy in Python) leaves
the single `(f,t)` edge with zero entries for that location, not one. -/
theorem C5_counterexample :
    (gEmptyLoc.edges.filter (matchB "f" "t")).length = 1 ∧
    gEmptyLoc.edges.map (fun e => e.locations.count "") = [0] := by decide

/-- C5 (amended): for every wellformed graph and every nonempty supplied
location, calling `add_dependency` twice with the same arguments leaves
exactly one `(from,to)` edge, and that edge's location list counts the
supplied location exactly once (for a falsy location — `None` or `""` — the
edge is still unique but carries no entry for it). -/
theorem C5_amended (g : DependencyGraph) (f t k l : String) (hl : l ≠ "")
    (hkeys : edgeKeysNodup g) (hlocs : locsNodup g) :
    (((add_dependency (add_dependency g f t k (some l)) f t k
        (some l)).edges.filter (matchB f t)).length = 1) ∧
    ∀ e ∈ (add_dependency (add_dependency g f t k (some l)) f t k
        (some l)).edges, matchB f t e = true → e.locations.count l = 1 := by
  by_cases h0 : hasEdgeB g f t = true
  · -- the edge already existed: both calls only update its locations
    have h1 : hasEdgeB (add_dependency g f t k (some l)) f t = true := by
      rw [hasEdgeB, add_dependency_edges_upd k (some l) h0, List.any_map]
      rw [hasEdgeB] at h0
      rw [List.any_eq_true] at h0 ⊢
      rcases h0 with ⟨e, he, hm⟩
      exact ⟨e, he, by rw [Function.comp_apply, matchB_updEdge]; exact hm⟩
    rw [add_dependency_edges_upd k (some l) h1,
      add_dependency_edges_upd k (some l) h0]
    constructor
    · rw [filter_map_updEdge, filter_map_updEdge, List.length_map,
        List.length_map]
      have hle : (g.edges.filter (matchB f t)).length ≤ 1 :=
        filter_match_len_le_one hkeys
      have hge : 0 < (g.edges.filter (matchB f t)).length := by
        rw [hasEdgeB, List.any_eq_true] at h0
        rcases h0 with ⟨e, he, hm⟩
        exact List.length_pos.mpr
          (List.ne_nil_of_mem (List.mem_filter.mpr ⟨he, hm⟩))
      omega
    · intro e he hm
      rcases List.mem_map.mp he with ⟨e1, he1, rfl⟩
      rcases List.mem_map.mp he1 with ⟨e0, he0, rfl⟩
      rw [matchB_updEdge, matchB_updEdge] at hm
      rw [updEdge, if_pos (by rw [matchB_updEdge]; exact hm), updEdge,
        if_pos hm]
      have hcount := count_pushLoc_some hl (hlocs e0 he0)
      have hmem : l ∈ pushLoc (some l) e0.locations := by
        have := hcount.1
        exact List.count_pos_iff.mp (by omega)
      rw [pushLoc_mem_id hmem]
      exact hcount.1
  · -- fresh edge on the first call, location update on the second
    have h0' : hasEdgeB g f t = false := by
      simpa using h0
    have hnew : (add_dependency g f t k (some l)).edges =
        g.edges ++ [⟨f, t, k, pushLoc (some l) []⟩] :=
      add_dependency_edges_new k (some l) h0'
    have h1 : hasEdgeB (add_dependency g f t k (some l)) f t = true := by
      rw [hasEdgeB, hnew]
      simp [matchB]
    rw [add_dependency_edges_upd k (some l) h1, hnew]
    have hfil : ((g.edges ++ [(⟨f, t, k, pushLoc (some l) []⟩ : DepEdge)]).map
        (updEdge f t (some l))).filter (matchB f t) =
        [updEdge f t (some l) ⟨f, t, k, pushLoc (some l) []⟩] := by
      rw [filter_map_updEdge, List.filter_append, filter_match_nil h0',
        List.nil_append, List.filter_cons,
        if_pos (by rw [matchB]; simp)]
      rfl
    constructor
    · rw [hfil]; rfl
    · intro e he hm
      rcases List.mem_map.mp he with ⟨e1, he1, rfl⟩
      rw [matchB_updEdge] at hm
      rcases List.mem_append.mp he1 with hg | hsingle
      · exfalso
        rw [hasEdgeB, List.any_eq_false] at h0'
        exact absurd (h0' e1 hg) (by simp [hm])
      · rcases List.mem_singleton.mp hsingle with rfl
        rw [updEdge, if_pos hm]
        have hc0 := count_pushLoc_some hl (List.nodup_nil (α := String))
        have hc1 := count_pushLoc_some hl hc0.2
        have hmem : l ∈ pushLoc (some l) ([] : List String) :=
          List.count_pos_iff.mp (by have := hc0.1; omega)
        show (pushLoc (some l) (pushLoc (some l) [])).count l = 1
        rw [pushLoc_mem_id hmem]
        exact hc0.1

/-- C5 witness: the amended statement on the empty graph with location "x". -/
theorem C5_witness :
    ("x" ≠ "" ∧ edgeKeysNodup emptyGraph ∧ locsNodup emptyGraph) ∧
    (((add_dependency (add_dependency emptyGraph "f" "t" "calls" (some "x"))
        "f" "t" "calls" (some "x")).edges.filter (matchB "f" "t")).length = 1) ∧
    ∀ e ∈ (add_dependency (add_dependency emptyGraph "f" "t" "calls"
        (some "x")) "f" "t" "calls" (some "x")).edges,
      matchB "f" "t" e = true → e.locations.count "x" = 1 :=
  ⟨⟨by decide, by simp [edgeKeysNodup, emptyGraph], by simp [locsNodup, emptyGraph]⟩,
    (C5_amended emptyGraph "f" "t" "calls" "x" (by decide)
      (by simp [edgeKeysNodup, emptyGraph]) (by simp [locsNodup, emptyGraph])).1,
    (C5_amended emptyGraph "f" "t" "calls" "x" (by decide)
      (by simp [edgeKeysNodup, emptyGraph]) (by simp [locsNodup, emptyGraph])).2⟩

/-- C10: if the `(from,to)` edge did not exist and was created with `kind1`,
a second `add_dependency` with a different `kind2` leaves the edge's kind
equal to `kind1` — the update path touches only the locations list. -/
theorem C10_theorem (g : DependencyGraph) (f t k1 k2 : String)
    (l1 l2 : Option String) (hne : hasEdgeB g f t = false) (_hk : k2 ≠ k1) :
    ((add_dependency (add_dependency g f t k1 l1) f t k2 l2).edges.filter
      (matchB f t)).map DepEdge.kind = [k1] := by
  have hnew : (add_dependency g f t k1 l1).edges =
      g.edges ++ [⟨f, t, k1, pushLoc l1 []⟩] :=
    add_dependency_edges_new k1 l1 hne
  have h1 : hasEdgeB (add_dependency g f t k1 l1) f t = true := by
    rw [hasEdgeB, hnew, List.any_append]
    have : matchB f t ⟨f, t, k1, pushLoc l1 []⟩ = true := by
      rw [matchB]; simp
    simp [this]
  rw [add_dependency_edges_upd k2 l2 h1, hnew, filter_map_updEdge,
    List.filter_append, filter_match_nil hne, List.nil_append,
    List.filter_cons, if_pos (by rw [matchB]; simp), List.filter_nil,
    List.map_map, List.map_cons, List.map_nil, Function.comp_apply,
    updEdge_kind]

/-- C10 witness: create `a→b` as `calls`, re-add as `imports`; the kind
stays `calls`. -/
theorem C10_witness :
    (hasEdgeB emptyGraph "a" "b" = false ∧ "imports" ≠ "calls") ∧
    ((add_dependency (add_dependency emptyGraph "a" "b" "calls" none)
      "a" "b" "imports" none).edges.filter (matchB "a" "b")).map
      DepEdge.kind = ["calls"] :=
  ⟨⟨by decide, by decide⟩,
    C10_theorem emptyGraph "a" "b" "calls" "imports" none none
      (by decide) (by decide)⟩

/-! ### Claim C9: the symbol registry -/

theorem lookupA_upsert {κ α : Type} [DecidableEq κ] :
    ∀ (l : List (κ × α)) (k k' : κ) (v : α),
      lookupA (upsert l k v) k' = if k' = k then some v else lookupA l k' := by
  intro l
  induction l with
  | nil =>
    intro k k' v
    by_cases h : k' = k
    · subst h
      simp [upsert, lookupA]
    · simp [upsert, lookupA, h, Ne.symm h]
  | cons p rest ih =>
    intro k k' v
    rcases p with ⟨a, b⟩
    rw [upsert]
    by_cases ha : a = k
    · rw [if_pos ha, lookupA, lookupA]
      by_cases h : k' = k
      · rw [if_pos h.symm, if_pos h]
      · rw [if_neg (fun hh => h hh.symm), if_neg h,
          if_neg (fun hh : a = k' => h (hh.symm.trans ha))]
    · rw [if_neg ha, lookupA, lookupA]
      by_cases h1 : a = k'
      · rw [if_pos h1, if_pos h1, if_neg (fun hh => ha (h1.trans hh))]
      · rw [if_neg h1, if_neg h1, ih]

theorem upsert_keys_mem {κ α : Type} [DecidableEq κ] :
    ∀ (l : List (κ × α)) (k : κ) (v : α) (a : κ),
      (a ∈ (upsert l k v).map Prod.fst ↔ a ∈ l.map Prod.fst ∨ a = k) := by
  intro l
  induction l with
  | nil => intro k v a; simp [upsert]
  | cons p rest ih =>
    intro k v a
    rcases p with ⟨a', b⟩
    rw [upsert]
    by_cases ha : a' = k
    · subst ha
      simp [upsert]
      tauto
    · rw [if_neg ha]
      simp only [List.map_cons, List.mem_cons, ih]
      tauto

theorem upsert_keys_nodup {κ α : Type} [DecidableEq κ] :
    ∀ (l : List (κ × α)) (k : κ) (v : α),
      (l.map Prod.fst).Nodup → ((upsert l k v).map Prod.fst).Nodup := by
  intro l
  induction l with
  | nil => intro k v _; simp [upsert]
  | cons p rest ih =>
    intro k v h
    rcases p with ⟨a', b⟩
    rw [List.map_cons, List.nodup_cons] at h
    rw [upsert]
    by_cases ha : a' = k
    · subst ha
      rw [if_pos rfl, List.map_cons, List.nodup_cons]
      exact h
    · rw [if_neg ha, List.map_cons, List.nodup_cons]
      refine ⟨fun hmem => ?_, ih k v h.2⟩
      rcases (upsert_keys_mem rest k v a').mp hmem with hm | hm
      · exact h.1 hm
      · exact ha hm

theorem upsert_length {κ α : Type} [DecidableEq κ] :
    ∀ (l : List (κ × α)) (k : κ) (v : α),
      (upsert l k v).length =
        if k ∈ l.map Prod.fst then l.length else l.length + 1 := by
  intro l
  induction l with
  | nil => intro k v; simp [upsert]
  | cons p rest ih =>
    intro k v
    rcases p with ⟨a', b⟩
    rw [upsert]
    by_cases ha : a' = k
    · subst ha
      rw [if_pos rfl]
      simp
    · rw [if_neg ha, List.length_cons, ih]
      simp only [List.map_cons, List.mem_cons]
      by_cases hk : k ∈ rest.map Prod.fst
      · rw [if_pos hk, if_pos (Or.inr hk), List.length_cons]
      · have hnot : ¬(k = (a', b).1 ∨ k ∈ rest.map Prod.fst) := by
          rintro (h | h)
          · exact ha h.symm
          · exact hk h
        rw [if_neg hk, if_neg hnot, List.length_cons]

/-- `_by_name` (resp. `_by_location`) after a fold of `add` calls is the fold
of `upsert`s keyed by the relevant projection. -/
theorem byName_foldl (syms : List Symbol) :
    ∀ (r : SymbolRegistry),
      (syms.foldl SymbolRegistry.add r).byName =
        syms.foldl (fun l s => upsert l s.qualified_name s) r.byName := by
  induction syms with
  | nil => intro r; rfl
  | cons s rest ih => intro r; rw [List.foldl_cons, List.foldl_cons, ih]; rfl

theorem byLoc_foldl (syms : List Symbol) :
    ∀ (r : SymbolRegistry),
      (syms.foldl SymbolRegistry.add r).byLoc =
        syms.foldl (fun l s => upsert l (locKey s) s) r.byLoc := by
  induction syms with
  | nil => intro r; rfl
  | cons s rest ih => intro r; rw [List.foldl_cons, List.foldl_cons, ih]; rfl

/-- A dict built by a fold of inserts answers each key with the last value
inserted at it, falling back to the initial dict. -/
theorem lookupA_foldl_upsert {κ : Type} [DecidableEq κ] (key : Symbol → κ) :
    ∀ (syms : List Symbol) (l : List (κ × Symbol)) (k : κ),
      lookupA (syms.foldl (fun l s => upsert l (key s) s) l) k =
        (match lastMatch (fun s => decide (key s = k)) syms with
         | some t => some t
         | none => lookupA l k) := by
  intro syms
  induction syms with
  | nil => intro l k; rfl
  | cons s rest ih =>
    intro l k
    rw [List.foldl_cons, ih, lastMatch]
    rcases lastMatch (fun s => decide (key s = k)) rest with _ | t
    · rw [lookupA_upsert]
      by_cases h : key s = k
      · simp [h]
      · simp [h, Ne.symm h]
    · rfl

theorem keys_foldl_mem {κ : Type} [DecidableEq κ] (key : Symbol → κ) :
    ∀ (syms : List Symbol) (l : List (κ × Symbol)) (a : κ),
      (a ∈ (syms.foldl (fun l s => upsert l (key s) s) l).map Prod.fst ↔
        a ∈ l.map Prod.fst ∨ a ∈ syms.map key) := by
  intro syms
  induction syms with
  | nil => intro l a; simp
  | cons s rest ih =>
    intro l a
    rw [List.foldl_cons, ih, upsert_keys_mem, List.map_cons, List.mem_cons]
    tauto

theorem keys_foldl_nodup {κ : Type} [DecidableEq κ] (key : Symbol → κ) :
    ∀ (syms : List Symbol) (l : List (κ × Symbol)),
      (l.map Prod.fst).Nodup →
      ((syms.foldl (fun l s => upsert l (key s) s) l).map Prod.fst).Nodup := by
  intro syms
  induction syms with
  | nil => intro l h; exact h
  | cons s rest ih =>
    intro l h
    rw [List.foldl_cons]
    exact ih _ (upsert_keys_nodup l (key s) s h)

/-- The registry size equals the number of distinct qualified names added. -/
theorem size_addAll (syms : List Symbol) :
    (addAll syms).size =
      ((syms.map (fun s => s.qualified_name)).dedup).length := by
  rw [SymbolRegistry.size, addAll, byName_foldl]
  have hnd : ((syms.foldl (fun l s => upsert l s.qualified_name s)
      emptyRegistry.byName).map Prod.fst).Nodup :=
    keys_foldl_nodup (fun s => s.qualified_name) syms emptyRegistry.byName
      (by simp [emptyRegistry])
  have hmem : ∀ a, a ∈ (syms.foldl (fun l s => upsert l s.qualified_name s)
      emptyRegistry.byName).map Prod.fst ↔
      a ∈ syms.map (fun s => s.qualified_name) := by
    intro a
    rw [keys_foldl_mem]
    simp [emptyRegistry]
  have h1 : (syms.foldl (fun l s => upsert l s.qualified_name s)
      emptyRegistry.byName).length =
      ((syms.foldl (fun l s => upsert l s.qualified_name s)
        emptyRegistry.byName).map Prod.fst).length := by
    rw [List.length_map]
  rw [h1, ← List.toFinset_card_of_nodup hnd,
    ← List.toFinset_card_of_nodup
      ((syms.map (fun s => s.qualified_name)).nodup_dedup)]
  congr 1
  ext a
  rw [List.mem_toFinset, List.mem_toFinset, List.mem_dedup, hmem]

/-- Symbols used by the C9 instances: two distinct qualified names declared
at the same source location. -/
def symA : Symbol := ⟨"a", "a", SymbolKind.function, ⟨"f.py", 1, 0⟩, none, none⟩

/-- Second symbol at the same `(file, line)` as `symA`. -/
def symB : Symbol := ⟨"b", "b", SymbolKind.function, ⟨"f.py", 1, 0⟩, none, none⟩

/-- C9 counterexample: `symA` was added (and its qualified name never reused),
yet it is not retrievable through the location index: `symB`, added later at
the same `(file, line)`, overwrote the `_by_location` entry.  The claim's
"every symbol added is retrievable by both indices" fails even with its
qualified-name carve-out, since this collision is on the location key. -/
theorem C9_counterexample :
    symA ∈ [symA, symB] ∧
    symA.location.file = "f.py" ∧ symA.location.line = 1 ∧
    (addAll [symA, symB]).get "a" = some symA ∧
    (addAll [symA, symB]).get_by_location "f.py" 1 = some symB ∧
    (addAll [symA, symB]).get_by_location "f.py" 1 ≠ some symA := by decide

/-- C9 (amended): after any sequence of `add` calls, `get q` returns exactly
the last added symbol whose qualified name is `q` (and `None` if there is
none), `get_by_location` returns exactly the last added symbol with that
`(file, line)` key, and `len(registry)` is the number of distinct qualified
names inserted — last insert wins on each index's own key, and a symbol stays
retrievable through an index only while no later insert collides with it
there. -/
theorem C9_amended (syms : List Symbol) (q : String) (k : String × Nat) :
    (addAll syms).get q =
      lastMatch (fun s => decide (s.qualified_name = q)) syms ∧
    (addAll syms).get_by_location k.1 k.2 =
      lastMatch (fun s => decide (locKey s = k)) syms ∧
    (addAll syms).size =
      ((syms.map (fun s => s.qualified_name)).dedup).length := by
  refine ⟨?_, ?_, size_addAll syms⟩
  · rw [SymbolRegistry.get, addAll, byName_foldl,
      lookupA_foldl_upsert (fun s => s.qualified_name) syms]
    rcases lastMatch (fun s => decide (s.qualified_name = q)) syms with _ | t
    · rfl
    · rfl
  · rw [SymbolRegistry.get_by_location, addAll, byLoc_foldl,
      lookupA_foldl_upsert locKey syms]
    rcases lastMatch (fun s => decide (locKey s = (k.1, k.2))) syms with _ | t
    · rfl
    · rfl

end CodeMapV
